import Mathlib

/-!
Verification of the revert-analysis repository (src/reverts.py and
src/xml_reverts.py) against its natural-language specification.

Revisions are modelled as records of numeric id, page id, content
fingerprint (the `rev_sha1` string, compared only for equality) and a
timestamp in seconds (an integer, the image of `mw.types.Timestamp`).
The revert-detection engine (`mw.lib.reverts`) is an external collaborator
that is not part of src/; it is modelled from the specification (§4.1).
Everything else is translated directly from the Python source.
-/

namespace RevertAnalysis

/-- Revision row as produced by the revision source: the four columns
selected by the query in `get_revision_stats` / `get_reverts`
(`rev_id`, `rev_page`, `rev_sha1`, `rev_timestamp`), with the timestamp
already parsed to seconds. -/
structure Rev where
  rev_id : Nat
  rev_page : Nat
  rev_sha1 : String
  rev_timestamp : Int
deriving DecidableEq, Repr

/-- RevertRecord: the triple `(reverting, reverteds, reverted_to)` that the
detector emits, in the component order of `mw.lib.reverts.Revert`. -/
structure Revert where
  reverting : Rev
  reverteds : List Rev
  reverted_to : Rev
deriving DecidableEq, Repr

/-- Modelled from the spec: window pruning of the SlidingWindowDetector
(§4.1 step 1) of the external `mw.lib.reverts` library, which is not under
src/.  The state is the window, most-recent revision first.  Revisions
older than `window` seconds relative to the revision being processed are
evicted, then all beyond the `radius` most-recent retained ones. -/
def pruneWindow (radius window : Nat) (now : Int) (st : List Rev) : List Rev :=
  (st.filter (fun e => now - e.rev_timestamp ≤ (window : Int))).take radius

/-- Modelled from the spec: nearest-match search of the SlidingWindowDetector
(§4.1 step 2).  Scans the window (most-recent first) for the first revision
with the given fingerprint; returns the strictly-newer entries scanned past
(still most-recent first) together with the match. -/
def findMatch (fp : String) : List Rev → Option (List Rev × Rev)
  | [] => none
  | e :: rest =>
    if e.rev_sha1 = fp then some ([], e)
    else (findMatch fp rest).map (fun pr => (e :: pr.1, pr.2))

/-- Modelled from the spec: one `process` call of the SlidingWindowDetector
(§4.1 steps 1–5) of the external `mw.lib.reverts` library.  Prunes, searches
for the nearest fingerprint match, refuses a match with no intervening
revisions (§4.1 step 4, the spec's default for the boundary), inserts the
new revision, and returns the new window together with the optional
RevertRecord. -/
def processRev (radius window : Nat) (st : List Rev) (r : Rev) :
    List Rev × Option Revert :=
  let w := pruneWindow radius window r.rev_timestamp st
  let res : Option Revert :=
    match findMatch r.rev_sha1 w with
    | none => none
    | some pr => if pr.1 = [] then none else some ⟨r, pr.1.reverse, pr.2⟩
  (r :: w, res)

/-- Modelled from the spec: running the SlidingWindowDetector over a
revision sequence from a given starting state, collecting the emitted
RevertRecords in order of their `reverting` revision. -/
def runDetector (radius window : Nat) (st : List Rev) :
    List Rev → List Rev × List Revert
  | [] => (st, [])
  | r :: rs =>
    let p := processRev radius window st r
    let rest := runDetector radius window p.1 rs
    (rest.1, p.2.toList ++ rest.2)

/-- Modelled from the spec: `mw.lib.reverts.detect` (§4.2 BatchDetector),
a fresh detector driven over one document's full revision sequence. -/
def detect (radius window : Nat) (revs : List Rev) : List Revert :=
  (runDetector radius window [] revs).2

/-- Test `Timestamp(r.rev_timestamp) >= start and Timestamp(...) <= end`
used on single revisions (reverts.py lines 148–149). -/
def revInRange (s e : Int) (r : Rev) : Bool :=
  decide (s ≤ r.rev_timestamp) && decide (r.rev_timestamp ≤ e)

/-- Test `Timestamp(revert.reverting[timestamp]) >= start and ... <= end`
applied to an emitted record (reverts.py lines 151–153 and 229–230). -/
def recInRange (s e : Int) (v : Revert) : Bool :=
  decide (s ≤ v.reverting.rev_timestamp) && decide (v.reverting.rev_timestamp ≤ e)

/-- Contiguous grouping of the cursor by `rev_page`: the embedding of
`itertools.groupby(cursor, key=lambda r: r.rev_page)` (reverts.py lines
141 and 225).  Adjacent revisions with equal page id form one run; a page
id recurring non-contiguously yields several runs. -/
def groupRuns : List Rev → List (Nat × List Rev)
  | [] => []
  | r :: rs =>
    match groupRuns rs with
    | [] => [(r.rev_page, [r])]
    | (p, g) :: gs =>
      if r.rev_page = p then (p, r :: g) :: gs
      else (r.rev_page, [r]) :: (p, g) :: gs

/-- Python dict assignment `revert_stats[page_id] = value` (reverts.py line
159): replaces the value when the key is present, otherwise appends. -/
def dictInsert (m : List (Nat × Nat × Nat)) (k : Nat) (v : Nat × Nat) :
    List (Nat × Nat × Nat) :=
  if m.any (fun x => x.1 == k) then
    m.map (fun x => if x.1 == k then (k, v) else x)
  else m ++ [(k, v)]

/-- Per-group loop body of `get_revision_stats` (reverts.py lines 144–157):
feeds each revision of the run through the detector state, counting
revisions whose own timestamp is in `[s, e]` and emitted records whose
`reverting` timestamp is in `[s, e]`.  Returns the detector state after the
run together with `(total_revisions, total_reverts)`. -/
def statsLoop (radius window : Nat) (s e : Int) (st : List Rev) :
    List Rev → List Rev × Nat × Nat
  | [] => (st, 0, 0)
  | r :: rs =>
    let p := processRev radius window st r
    let rest := statsLoop radius window s e p.1 rs
    let inc1 : Nat := if revInRange s e r then 1 else 0
    let inc2 : Nat :=
      match p.2 with
      | some v => if recInRange s e v then 1 else 0
      | none => 0
    (rest.1, inc1 + rest.2.1, inc2 + rest.2.2)

/-- Body of `get_revision_stats` after validation (reverts.py lines
138–161): one detector instance is created before the page loop and its
state is threaded through every page's run; each run's totals are written
into the dict under the run's page id. -/
def processCursor (cursor : List Rev) (s e : Int) (radius window : Nat) :
    List (Nat × Nat × Nat) :=
  ((groupRuns cursor).foldl
    (fun acc g =>
      (dictInsert acc.1 g.1 (statsLoop radius window s e acc.2 g.2).2,
       (statsLoop radius window s e acc.2 g.2).1))
    ([], [])).1

/-- Body of `get_reverts` after validation (reverts.py lines 223–231): for
each page run, a fresh detection pass (`reverts.detect`), yielding the
records whose `reverting` timestamp lies in `[s, e]`. -/
def getRevertsCursor (cursor : List Rev) (s e : Int) (radius window : Nat) :
    List Revert :=
  (groupRuns cursor).flatMap (fun g => (detect radius window g.2).filter (recInRange s e))

/-- Default revert radius (reverts.py line 23). -/
def DEFAULT_REVERT_RADIUS : Nat := 15

/-- Default revert window: 72 hours in seconds (reverts.py line 24). -/
def DEFAULT_REVERT_WINDOW : Nat := 259200

/-- First fixture revision of reverts.py (lines 121–123), timestamp
`20150325230000` = 1427324400 epoch seconds. -/
def fix1 : Rev := ⟨653552189, 46229350, "rhuxsljucr65exl77pb9nree4xi8lt0", 1427324400⟩

/-- Second fixture revision (lines 124–126), timestamp `20150326000000`. -/
def fix2 : Rev := ⟨653552612, 46229350, "bxzc7qgbiunuj1sxz1wmuyaflxwa3t4", 1427328000⟩

/-- Third fixture revision (lines 127–129), timestamp `20150326010000`. -/
def fix3 : Rev := ⟨653552809, 46229350, "ibhyl01ikzp0n3ss0egb0kdqse5diq1", 1427331600⟩

/-- Fourth fixture revision (lines 130–132), timestamp `20150326020000`;
its fingerprint repeats the second revision's. -/
def fix4 : Rev := ⟨653553137, 46229350, "bxzc7qgbiunuj1sxz1wmuyaflxwa3t4", 1427335200⟩

/-- Fifth fixture revision (lines 133–135), the only revision of document
47898909, timestamp `20150326030000`. -/
def fix5 : Rev := ⟨653553138, 47898909, "zzzc7qgbiunuj1sxz1wmuyaflxwzzzz", 1427338800⟩

/-- The hard-coded test cursor of reverts.py (lines 120–136 and 205–221),
with the 14-digit UTC timestamp strings parsed to epoch seconds. -/
def fixtureCursor : List Rev := [fix1, fix2, fix3, fix4, fix5]

/-- `get_revision_stats(start, end, revert_radius, revert_window)`
(reverts.py lines 79–161): validates that `start` and `end` are present
(raising `ValueError` otherwise), then runs the stats loop over the
cursor — which in the source is the hard-coded fixture, the database
execution being commented out. -/
def get_revision_stats (start? end? : Option Int) (revert_radius revert_window : Nat) :
    Except String (List (Nat × Nat × Nat)) :=
  match start? with
  | none => .error "Invalid start"
  | some s =>
    match end? with
    | none => .error "Invalid end"
    | some e => .ok (processCursor fixtureCursor s e revert_radius revert_window)

/-- `get_reverts(start, end, revert_radius, revert_window)` (reverts.py
lines 164–231): validates that `start` and `end` are present, then yields
the in-range reverts of each page run of the cursor (the hard-coded
fixture in the source). -/
def get_reverts (start? end? : Option Int) (revert_radius revert_window : Nat) :
    Except String (List Revert) :=
  match start? with
  | none => .error "Invalid start"
  | some s =>
    match end? with
    | none => .error "Invalid end"
    | some e => .ok (getRevertsCursor fixtureCursor s e revert_radius revert_window)

/-- Bool form of the ordering `ORDER BY r1.rev_page, r1.rev_timestamp ASC`
of the selection query (reverts.py lines 105–111 and 190–196). -/
def pageTsLe (a b : Rev) : Bool :=
  decide (a.rev_page < b.rev_page) ||
    (decide (a.rev_page = b.rev_page) && decide (a.rev_timestamp ≤ b.rev_timestamp))

/-- Modelled from the spec: the revision selection whose execution is
commented out in the source (reverts.py lines 115–117 and 200–202; the SQL
text at lines 105–111 with bound values `[start − revert_window, end]` at
lines 103 and 113).  Over an abstract revision table it keeps the rows
whose timestamp lies in the closed extended range and orders them by page
id, then ascending timestamp. -/
def fetchRevisions (table : List Rev) (s e : Int) (window : Nat) : List Rev :=
  (table.filter
    (fun r => decide (s - (window : Int) ≤ r.rev_timestamp) && decide (r.rev_timestamp ≤ e))).mergeSort
    pageTsLe

/-- Modelled from the spec: `StatsAggregator.compute` (§4.3), the stats
pipeline of `get_revision_stats` driven over an abstract revision table
instead of the hard-coded fixture. -/
def compute (table : List Rev) (s e : Int) (radius window : Nat) :
    List (Nat × Nat × Nat) :=
  processCursor (fetchRevisions table s e window) s e radius window

/-- Modelled from the spec: the revert stream of `get_reverts` driven over
an abstract revision table instead of the hard-coded fixture. -/
def getRevertsFrom (table : List Rev) (s e : Int) (radius window : Nat) :
    List Revert :=
  getRevertsCursor (fetchRevisions table s e window) s e radius window

/-! ## xml_reverts.py: tabular rendering -/

/-- A Python value reaching `encode` in xml_reverts.py: `None`, a text
value, or an integer (ids, counts; `str(val)` is applied to these). -/
inductive Val where
  | null : Val
  | str : List Char → Val
  | nat : Nat → Val
deriving DecidableEq, Repr

/-- First replacement pass of `encode`: `val.replace("\t", "\\t")`
(xml_reverts.py line 59). -/
def replaceTab : List Char → List Char
  | [] => []
  | c :: cs => (if c = '\t' then ['\\', 't'] else [c]) ++ replaceTab cs

/-- Second replacement pass of `encode`: `.replace("\n", "\\n")`
(xml_reverts.py line 59). -/
def replaceNewline : List Char → List Char
  | [] => []
  | c :: cs => (if c = '\n' then ['\\', 'n'] else [c]) ++ replaceNewline cs

/-- Escaping applied by `encode` to non-`None` values: tab then newline
replacement. -/
def escapeChars (cs : List Char) : List Char :=
  replaceNewline (replaceTab cs)

/-- `encode(val)` (xml_reverts.py lines 51–59): `None` renders as the
literal `NULL` (unescaped); every other value is stringified and has its
tab and newline characters backslash-escaped. -/
def encode : Val → List Char
  | .null => "NULL".data
  | .str cs => escapeChars cs
  | .nat n => escapeChars (toString n).data

/-- Revision attributes used by the rendering (`id`, `timestamp` of the
XML-dump revision objects). -/
structure XRev where
  id : Val
  timestamp : Val
deriving DecidableEq, Repr

/-- One detected revert together with the page attributes it is rendered
with (xml_reverts.py lines 35 and 44–45). -/
structure XRow where
  page_id : Val
  page_namespace : Val
  page_title : Val
  reverting : XRev
  reverteds : List XRev
  reverted_to : XRev
deriving DecidableEq, Repr

/-- The eight field values of one output row, in the order of
xml_reverts.py lines 46–49. -/
def rowFields (x : XRow) : List Val :=
  [x.page_id, x.page_namespace, x.page_title,
   x.reverting.id, x.reverting.timestamp,
   .nat x.reverteds.length,
   x.reverted_to.id, x.reverted_to.timestamp]

/-- One rendered row: `"\t".join(encode(v) for v in [...])`
(xml_reverts.py lines 46–49). -/
def renderRow (x : XRow) : List Char :=
  (['\t'] : List Char).intercalate ((rowFields x).map encode)

/-- The header row printed by `run` (xml_reverts.py lines 39–42). -/
def headerRow : List Char :=
  (['\t'] : List Char).intercalate
    (["page_id", "page_namespace", "page_title", "reverting_id",
      "reverting_timestamp", "reverteds", "reverted_to_id",
      "reverted_to_timestamp"].map String.data)

/-- The full line output of `run` (xml_reverts.py lines 39–49): the header
followed by exactly one rendered row per detected revert. -/
def runRows (rows : List XRow) : List (List Char) :=
  headerRow :: rows.map renderRow

/-- The BatchDetector applied page-run by page-run with no reporting-range
filter: every record each fresh per-document detection pass emits. -/
def detectReverts (cursor : List Rev) (radius window : Nat) : List Revert :=
  (groupRuns cursor).flatMap (fun g => detect radius window g.2)

/-! ## Lemmas about the detector -/

theorem findMatch_mem {fp : String} :
    ∀ {l : List Rev} {pr : List Rev × Rev}, findMatch fp l = some pr → pr.2 ∈ l := by
  intro l
  induction l with
  | nil => intro pr h; simp [findMatch] at h
  | cons e rest ih =>
    intro pr h
    unfold findMatch at h
    by_cases he : e.rev_sha1 = fp
    · rw [if_pos he] at h
      cases h
      exact List.mem_cons_self _ _
    · rw [if_neg he] at h
      rcases hm : findMatch fp rest with _ | q
      · rw [hm] at h; simp at h
      · rw [hm] at h
        cases h
        show q.2 ∈ e :: rest
        exact List.mem_cons_of_mem _ (ih hm)

theorem processRev_bound {radius window : Nat} {st : List Rev} {r : Rev} {v : Revert}
    (h : (processRev radius window st r).2 = some v) :
    v.reverting.rev_timestamp - v.reverted_to.rev_timestamp ≤ (window : Int) := by
  unfold processRev at h
  simp only at h
  rcases hm : findMatch r.rev_sha1 (pruneWindow radius window r.rev_timestamp st) with _ | pr
  · rw [hm] at h; simp at h
  · rw [hm] at h
    by_cases hnil : pr.1 = []
    · simp [hnil] at h
    · simp [hnil] at h
      have hmem : pr.2 ∈ pruneWindow radius window r.rev_timestamp st := findMatch_mem hm
      have : pr.2 ∈ (st.filter (fun x => r.rev_timestamp - x.rev_timestamp ≤ (window : Int))) :=
        List.mem_of_mem_take hmem
      have := (List.mem_filter.mp this).2
      subst h
      simpa using this

theorem runDetector_bound {radius window : Nat} :
    ∀ {revs st : List Rev} {v : Revert}, v ∈ (runDetector radius window st revs).2 →
      v.reverting.rev_timestamp - v.reverted_to.rev_timestamp ≤ (window : Int) := by
  intro revs
  induction revs with
  | nil => intro st v h; simp [runDetector] at h
  | cons r rs ih =>
    intro st v h
    simp only [runDetector, List.mem_append] at h
    rcases h with h | h
    · rcases ho : (processRev radius window st r).2 with _ | w
      · rw [ho] at h; simp at h
      · rw [ho] at h
        simp [Option.toList] at h
        subst h
        exact processRev_bound ho
    · exact ih h

/-! ## The stats loop computes countP and filtered record counts -/

theorem statsLoop_spec (radius window : Nat) (s e : Int) :
    ∀ (revs st : List Rev),
      statsLoop radius window s e st revs =
        ((runDetector radius window st revs).1,
         revs.countP (revInRange s e),
         ((runDetector radius window st revs).2.filter (recInRange s e)).length) := by
  intro revs
  induction revs with
  | nil => intro st; simp [statsLoop, runDetector]
  | cons r rs ih =>
    intro st
    simp only [statsLoop, runDetector, ih]
    simp only [Prod.mk.injEq]
    refine ⟨trivial, ?_, ?_⟩
    · rw [List.countP_cons]
      exact Nat.add_comm _ _
    · rcases ho : (processRev radius window st r).2 with _ | v
      · simp [Option.toList]
      · simp only [Option.toList, List.filter_append, List.length_append]
        by_cases h : recInRange s e v = true <;> simp [List.filter, h]

/-! ## Claim theorems: C4, C7, C9, C3, C2 -/

/-- C4: for every revision sequence, a detected revert is yielded by
`get_reverts` and counted in `total_reverts` exactly when its `reverting`
revision's timestamp lies in the closed interval `[start, end]` — the
range test (`recInRange`) inspects only the `reverting` revision, so
whether `reverted_to` predates `start` is irrelevant. -/
theorem reverts_counted_iff_reverting_in_range :
    ∀ (cursor : List Rev) (s e : Int) (radius window : Nat),
      getRevertsCursor cursor s e radius window =
        (detectReverts cursor radius window).filter (recInRange s e) ∧
      ∀ (st revs : List Rev),
        (statsLoop radius window s e st revs).2.2 =
          ((runDetector radius window st revs).2.filter (recInRange s e)).length := by
  intro cursor s e radius window
  constructor
  · simp [getRevertsCursor, detectReverts, List.filter_flatMap]
  · intro st revs
    rw [statsLoop_spec]

/-- C7: a fingerprint match whose `reverted_to` revision is strictly older
than `revert_window` seconds relative to the reverting revision is never
reported (every emitted record satisfies the inclusive age bound), while a
match exactly `revert_window` seconds old is reported: with window 5, a
reverted-to revision of age exactly 5 is detected and one of age 6 is not. -/
theorem revert_window_age_bound :
    (∀ (radius window : Nat) (st revs : List Rev) (v : Revert),
        v ∈ (runDetector radius window st revs).2 →
        v.reverting.rev_timestamp - v.reverted_to.rev_timestamp ≤ (window : Int)) ∧
    (∀ (cursor : List Rev) (s e : Int) (radius window : Nat) (v : Revert),
        v ∈ getRevertsCursor cursor s e radius window →
        v.reverting.rev_timestamp - v.reverted_to.rev_timestamp ≤ (window : Int)) ∧
    detect 15 5 [⟨1, 1, "a", 0⟩, ⟨2, 1, "b", 1⟩, ⟨3, 1, "a", 5⟩] =
      [⟨⟨3, 1, "a", 5⟩, [⟨2, 1, "b", 1⟩], ⟨1, 1, "a", 0⟩⟩] ∧
    detect 15 5 [⟨1, 1, "a", 0⟩, ⟨2, 1, "b", 1⟩, ⟨3, 1, "a", 6⟩] = [] := by
  refine ⟨?_, ?_, by decide, by decide⟩
  · intro radius window st revs v h
    exact runDetector_bound h
  · intro cursor s e radius window v h
    simp only [getRevertsCursor, List.mem_flatMap] at h
    obtain ⟨g, hg, hv⟩ := h
    have hmem := (List.mem_filter.mp hv).1
    exact runDetector_bound (by simpa [detect] using hmem)

/-- Witness for `revert_window_age_bound`: the inclusive-boundary record of
the concrete scenario is emitted and satisfies the age bound. -/
theorem revert_window_age_bound_witness :
    ((⟨⟨3, 1, "a", 5⟩, [⟨2, 1, "b", 1⟩], ⟨1, 1, "a", 0⟩⟩ : Revert) ∈
        (runDetector 15 5 [] [⟨1, 1, "a", 0⟩, ⟨2, 1, "b", 1⟩, ⟨3, 1, "a", 5⟩]).2) ∧
    (Revert.mk ⟨3, 1, "a", 5⟩ [⟨2, 1, "b", 1⟩] ⟨1, 1, "a", 0⟩).reverting.rev_timestamp -
        (Revert.mk ⟨3, 1, "a", 5⟩ [⟨2, 1, "b", 1⟩] ⟨1, 1, "a", 0⟩).reverted_to.rev_timestamp ≤
      ((5 : Nat) : Int) :=
  ⟨by decide,
   revert_window_age_bound.1 15 5 []
     [⟨1, 1, "a", 0⟩, ⟨2, 1, "b", 1⟩, ⟨3, 1, "a", 5⟩]
     ⟨⟨3, 1, "a", 5⟩, [⟨2, 1, "b", 1⟩], ⟨1, 1, "a", 0⟩⟩ (by decide)⟩

/-- C9: detection is deterministic — the outputs of `get_reverts` and
`get_revision_stats` are functions of the input revision sequence and the
parameters alone (each run starts from the same fresh detector state), so
two runs on equal inputs produce equal results. -/
theorem detection_deterministic (c₁ c₂ : List Rev) (s₁ s₂ e₁ e₂ : Int)
    (r₁ r₂ w₁ w₂ : Nat) (hc : c₁ = c₂) (hs : s₁ = s₂) (he : e₁ = e₂)
    (hr : r₁ = r₂) (hw : w₁ = w₂) :
    getRevertsCursor c₁ s₁ e₁ r₁ w₁ = getRevertsCursor c₂ s₂ e₂ r₂ w₂ ∧
    processCursor c₁ s₁ e₁ r₁ w₁ = processCursor c₂ s₂ e₂ r₂ w₂ := by
  subst hc hs he hr hw
  exact ⟨rfl, rfl⟩

/-- Witness for `detection_deterministic` at the fixture input. -/
theorem detection_deterministic_witness :
    getRevertsCursor fixtureCursor 1427324400 1427338800 15 259200 =
      getRevertsCursor fixtureCursor 1427324400 1427338800 15 259200 ∧
    processCursor fixtureCursor 1427324400 1427338800 15 259200 =
      processCursor fixtureCursor 1427324400 1427338800 15 259200 :=
  detection_deterministic fixtureCursor fixtureCursor 1427324400 1427324400
    1427338800 1427338800 15 15 259200 259200 rfl rfl rfl rfl rfl

/-- C3 counterexample: with both endpoints present and `start > end`
(start 5, end 3), neither `get_revision_stats` nor `get_reverts` raises an
invalid-range error — the `start ≤ end` constraint is not checked. -/
theorem no_error_when_start_after_end :
    (get_revision_stats (some 5) (some 3) DEFAULT_REVERT_RADIUS
        DEFAULT_REVERT_WINDOW).isOk = true ∧
    (get_reverts (some 5) (some 3) DEFAULT_REVERT_RADIUS
        DEFAULT_REVERT_WINDOW).isOk = true ∧
    (3 : Int) < 5 := by
  exact ⟨rfl, rfl, by norm_num⟩

/-- C3 as amended: `get_revision_stats` and `get_reverts` raise an
invalid-range error if and only if `start` is missing or `end` is missing;
a present pair proceeds without raising even when `start > end`. -/
theorem error_iff_endpoint_missing :
    ∀ (s? e? : Option Int) (radius window : Nat),
      ((get_revision_stats s? e? radius window).isOk = true ↔
        s?.isSome = true ∧ e?.isSome = true) ∧
      ((get_reverts s? e? radius window).isOk = true ↔
        s?.isSome = true ∧ e?.isSome = true) := by
  intro s? e? radius window
  rcases s? with _ | s <;> rcases e? with _ | e <;>
    simp [get_revision_stats, get_reverts, Except.isOk, Except.toBool]

/-- Cursor with two documents in which the second document's only revision
repeats the fingerprint `x` of the first document's first revision. -/
def crossCursor : List Rev := [⟨1, 1, "x", 100⟩, ⟨2, 1, "y", 200⟩, ⟨3, 2, "x", 300⟩]

/-- C2 (failing input): `get_revision_stats` creates its detector once,
before the page loop, so its window survives the document boundary: on
`crossCursor` the single revision of document 2 is matched against
document 1's revision and document 2 is reported with one revert, while
`get_reverts` — which runs a fresh detection pass per document — reports
none. -/
theorem shared_detector_crosses_documents :
    processCursor crossCursor 0 1000 15 10000 = [(1, 2, 0), (2, 1, 1)] ∧
    (runDetector 15 10000 [] crossCursor).2 =
      [⟨⟨3, 2, "x", 300⟩, [⟨2, 1, "y", 200⟩], ⟨1, 1, "x", 100⟩⟩] ∧
    (⟨3, 2, "x", 300⟩ : Rev).rev_page ≠ (⟨1, 1, "x", 100⟩ : Rev).rev_page ∧
    getRevertsCursor crossCursor 0 1000 15 10000 = [] := by
  exact ⟨by decide, by decide, by decide, by decide⟩

/-! ## Claim theorem: C1, the built-in fixture -/

/-- C1: on the built-in five-revision fixture, for every start at or
before the earliest fixture timestamp and end at or after the latest,
`get_revision_stats` with the default radius and window returns exactly
`{46229350 ↦ (4, 1), 47898909 ↦ (1, 0)}`, and the one revert has the 4th
fixture revision as `reverting`, the 2nd as `reverted_to` and exactly the
3rd as its `reverteds`. -/
theorem fixture_default_stats (s e : Int)
    (hs : s ≤ 1427324400) (he : 1427338800 ≤ e) :
    get_revision_stats (some s) (some e) DEFAULT_REVERT_RADIUS DEFAULT_REVERT_WINDOW =
      .ok [(46229350, 4, 1), (47898909, 1, 0)] ∧
    get_reverts (some s) (some e) DEFAULT_REVERT_RADIUS DEFAULT_REVERT_WINDOW =
      .ok [⟨fix4, [fix3], fix2⟩] := by
  have h1 : revInRange s e fix1 = true := by simp [revInRange, fix1]; omega
  have h2 : revInRange s e fix2 = true := by simp [revInRange, fix2]; omega
  have h3 : revInRange s e fix3 = true := by simp [revInRange, fix3]; omega
  have h4 : revInRange s e fix4 = true := by simp [revInRange, fix4]; omega
  have h5 : revInRange s e fix5 = true := by simp [revInRange, fix5]; omega
  have hrec : recInRange s e ⟨fix4, [fix3], fix2⟩ = true := by
    simp [recInRange, fix4]; omega
  have hgroup : groupRuns fixtureCursor =
      [(46229350, [fix1, fix2, fix3, fix4]), (47898909, [fix5])] := by decide
  have hrunA : runDetector DEFAULT_REVERT_RADIUS DEFAULT_REVERT_WINDOW []
      [fix1, fix2, fix3, fix4] =
      ([fix4, fix3, fix2, fix1], [⟨fix4, [fix3], fix2⟩]) := by decide
  have hrunB : runDetector DEFAULT_REVERT_RADIUS DEFAULT_REVERT_WINDOW
      [fix4, fix3, fix2, fix1] [fix5] =
      ([fix5, fix4, fix3, fix2, fix1], []) := by decide
  have hrunB0 : runDetector DEFAULT_REVERT_RADIUS DEFAULT_REVERT_WINDOW [] [fix5] =
      ([fix5], []) := by decide
  have hA : statsLoop DEFAULT_REVERT_RADIUS DEFAULT_REVERT_WINDOW s e []
      [fix1, fix2, fix3, fix4] = ([fix4, fix3, fix2, fix1], 4, 1) := by
    rw [statsLoop_spec, hrunA]
    simp [List.countP_cons, h1, h2, h3, h4, hrec]
  have hB : statsLoop DEFAULT_REVERT_RADIUS DEFAULT_REVERT_WINDOW s e
      [fix4, fix3, fix2, fix1] [fix5] = ([fix5, fix4, fix3, fix2, fix1], 1, 0) := by
    rw [statsLoop_spec, hrunB]
    simp [List.countP_cons, h5]
  constructor
  · simp only [get_revision_stats]
    unfold processCursor
    rw [hgroup]
    simp only [List.foldl_cons, List.foldl_nil, hA, hB]
    exact congrArg Except.ok (by decide)
  · simp only [get_reverts]
    unfold getRevertsCursor
    rw [hgroup]
    simp only [List.flatMap_cons, List.flatMap_nil, detect, hrunA, hrunB0]
    simp [hrec]

/-- Witness for `fixture_default_stats` at the extreme fixture
timestamps. -/
theorem fixture_default_stats_witness :
    get_revision_stats (some 1427324400) (some 1427338800) DEFAULT_REVERT_RADIUS
        DEFAULT_REVERT_WINDOW = .ok [(46229350, 4, 1), (47898909, 1, 0)] ∧
    get_reverts (some 1427324400) (some 1427338800) DEFAULT_REVERT_RADIUS
        DEFAULT_REVERT_WINDOW = .ok [⟨fix4, [fix3], fix2⟩] :=
  fixture_default_stats 1427324400 1427338800 (by norm_num) (by norm_num)

/-! ## Grouping and dictionary machinery for C5 and C10 -/

/-- The per-run tallies of `get_revision_stats`, in page-loop order: one
`(page_id, (total_revisions, total_reverts))` triple per contiguous run of
the cursor, with the single shared detector state threaded through the
runs exactly as in the source. -/
def threadTallies (radius window : Nat) (s e : Int) :
    List (Nat × List Rev) → List Rev → List (Nat × Nat × Nat)
  | [], _ => []
  | g :: gs, st =>
    (g.1, (statsLoop radius window s e st g.2).2) ::
      threadTallies radius window s e gs (statsLoop radius window s e st g.2).1

/-- The run tallies of `get_revision_stats` on a cursor, starting from the
fresh detector state. -/
def groupTallies (cursor : List Rev) (s e : Int) (radius window : Nat) :
    List (Nat × Nat × Nat) :=
  threadTallies radius window s e (groupRuns cursor) []

/-- Folding the dict writes `revert_stats[page_id] = tally` over a tally
list, starting from a given dict. -/
def foldDictFrom (m ts : List (Nat × Nat × Nat)) : List (Nat × Nat × Nat) :=
  ts.foldl (fun acc t => dictInsert acc t.1 t.2) m

theorem foldl_step_eq (radius window : Nat) (s e : Int) :
    ∀ (gs : List (Nat × List Rev)) (m : List (Nat × Nat × Nat)) (st : List Rev),
      (gs.foldl (fun acc g =>
          (dictInsert acc.1 g.1 (statsLoop radius window s e acc.2 g.2).2,
           (statsLoop radius window s e acc.2 g.2).1)) (m, st)).1 =
        foldDictFrom m (threadTallies radius window s e gs st)
  | [], _, _ => rfl
  | g :: gs, m, st => by
    simp only [List.foldl_cons, threadTallies, foldDictFrom]
    exact foldl_step_eq radius window s e gs _ _

/-- `get_revision_stats` is the dict fold of the per-run tallies. -/
theorem processCursor_eq_foldDict (cursor : List Rev) (s e : Int)
    (radius window : Nat) :
    processCursor cursor s e radius window =
      foldDictFrom [] (groupTallies cursor s e radius window) :=
  foldl_step_eq radius window s e (groupRuns cursor) [] []

theorem threadTallies_keys (radius window : Nat) (s e : Int) :
    ∀ (gs : List (Nat × List Rev)) (st : List Rev),
      (threadTallies radius window s e gs st).map Prod.fst = gs.map Prod.fst
  | [], _ => rfl
  | g :: gs, st => by
    simp only [threadTallies, List.map_cons]
    rw [threadTallies_keys radius window s e gs]

theorem mem_threadTallies (radius window : Nat) (s e : Int) :
    ∀ (gs : List (Nat × List Rev)) (st : List Rev) (t : Nat × Nat × Nat),
      t ∈ threadTallies radius window s e gs st →
      ∃ run, (t.1, run) ∈ gs ∧ t.2.1 = run.countP (revInRange s e)
  | [], _, t => by simp [threadTallies]
  | g :: gs, st, t => by
    intro h
    rw [threadTallies] at h
    rcases List.mem_cons.mp h with h | h
    · subst h
      refine ⟨g.2, ?_, ?_⟩
      · exact List.mem_cons_self _ _
      · rw [statsLoop_spec]
    · obtain ⟨run, hrun, hv⟩ := mem_threadTallies radius window s e gs _ t h
      exact ⟨run, List.mem_cons_of_mem _ hrun, hv⟩

/-! ## Lemmas about `groupRuns` -/

theorem groupRuns_flatMap : ∀ (c : List Rev), (groupRuns c).flatMap Prod.snd = c
  | [] => rfl
  | r :: rs => by
    have ih := groupRuns_flatMap rs
    rw [groupRuns]
    rcases hg : groupRuns rs with _ | ⟨⟨p, g⟩, gs⟩
    · rw [hg] at ih
      simp only [List.flatMap_nil] at ih
      simp [← ih]
    · rw [hg] at ih
      by_cases hpp : r.rev_page = p <;> simp_all

theorem groupRuns_pages : ∀ (c : List Rev) (pr : Nat × List Rev),
    pr ∈ groupRuns c → pr.2 ≠ [] ∧ ∀ x ∈ pr.2, x.rev_page = pr.1
  | [], pr => by simp [groupRuns]
  | r :: rs, pr => by
    intro h
    rw [groupRuns] at h
    rcases hg : groupRuns rs with _ | ⟨⟨p, g⟩, gs⟩
    · rw [hg] at h
      simp only [List.mem_singleton] at h
      subst h
      simp
    · rw [hg] at h
      simp only [] at h
      by_cases hpp : r.rev_page = p
      · rw [if_pos hpp] at h
        rcases List.mem_cons.mp h with h | h
        · subst h
          have hold := groupRuns_pages rs (p, g) (hg ▸ List.mem_cons_self _ _)
          refine ⟨by simp, ?_⟩
          intro x hx
          rcases List.mem_cons.mp hx with rfl | hx
          · exact hpp
          · exact hold.2 x hx
        · exact groupRuns_pages rs pr (hg ▸ List.mem_cons_of_mem _ h)
      · rw [if_neg hpp] at h
        rcases List.mem_cons.mp h with h | h
        · subst h
          simp
        · exact groupRuns_pages rs pr (hg ▸ h)

theorem mem_groupRuns_keys_iff (c : List Rev) (p : Nat) :
    p ∈ (groupRuns c).map Prod.fst ↔ p ∈ c.map Rev.rev_page := by
  constructor
  · intro h
    obtain ⟨pr, hpr, hk⟩ := List.mem_map.mp h
    obtain ⟨hne, hall⟩ := groupRuns_pages c pr hpr
    obtain ⟨x, hx⟩ := List.exists_mem_of_ne_nil _ hne
    refine List.mem_map.mpr ⟨x, ?_, by rw [hall x hx, hk]⟩
    rw [← groupRuns_flatMap c]
    exact List.mem_flatMap.mpr ⟨pr, hpr, hx⟩
  · intro h
    obtain ⟨x, hx, hk⟩ := List.mem_map.mp h
    rw [← groupRuns_flatMap c] at hx
    obtain ⟨pr, hpr, hxpr⟩ := List.mem_flatMap.mp hx
    have := (groupRuns_pages c pr hpr).2 x hxpr
    exact List.mem_map.mpr ⟨pr, hpr, by rw [← this, hk]⟩

theorem flatMap_filter_of_not_mem (p : Nat) :
    ∀ (gs : List (Nat × List Rev)),
      (∀ pr ∈ gs, ∀ x ∈ pr.2, x.rev_page = pr.1) →
      p ∉ gs.map Prod.fst →
      (gs.flatMap Prod.snd).filter (fun r => r.rev_page == p) = []
  | [] => by simp
  | g :: gs => by
    intro hall hmem
    simp only [List.flatMap_cons, List.filter_append]
    rw [flatMap_filter_of_not_mem p gs (fun pr h => hall pr (List.mem_cons_of_mem _ h))
        (fun h => hmem (List.mem_cons_of_mem _ h))]
    rw [List.filter_eq_nil_iff.mpr, List.append_nil]
    intro x hx
    have hx1 := hall g (List.mem_cons_self _ _) x hx
    simp only [beq_iff_eq, hx1]
    intro hgp
    exact hmem (List.mem_map.mpr ⟨g, List.mem_cons_self _ _, hgp⟩)

theorem flatMap_filter_of_nodup (p : Nat) :
    ∀ (gs : List (Nat × List Rev)),
      (∀ pr ∈ gs, ∀ x ∈ pr.2, x.rev_page = pr.1) →
      (gs.map Prod.fst).Nodup →
      ∀ run, (p, run) ∈ gs →
      (gs.flatMap Prod.snd).filter (fun r => r.rev_page == p) = run
  | [] => by simp
  | g :: gs => by
    intro hall hnd run hmem
    have hnd₀ : (g.1 :: gs.map Prod.fst).Nodup := by simpa using hnd
    have hk1 : g.1 ∉ gs.map Prod.fst := (List.nodup_cons.mp hnd₀).1
    have hk2 : (gs.map Prod.fst).Nodup := (List.nodup_cons.mp hnd₀).2
    simp only [List.flatMap_cons, List.filter_append]
    rcases List.mem_cons.mp hmem with h | h
    · subst h
      rw [List.filter_eq_self.mpr, flatMap_filter_of_not_mem p gs
          (fun pr hpr => hall pr (List.mem_cons_of_mem _ hpr)) hk1, List.append_nil]
      intro x hx
      simp [hall (p, run) (List.mem_cons_self _ _) x hx]
    · have hpk : p ∈ gs.map Prod.fst := List.mem_map.mpr ⟨(p, run), h, rfl⟩
      have hgp : g.1 ≠ p := fun hh => hk1 (hh ▸ hpk)
      rw [List.filter_eq_nil_iff.mpr, List.nil_append]
      · exact flatMap_filter_of_nodup p gs
          (fun pr hpr => hall pr (List.mem_cons_of_mem _ hpr)) hk2 run h
      · intro x hx
        simp [hall g (List.mem_cons_self _ _) x hx, hgp]

/-! ## Lemmas about `dictInsert` and the dict fold -/

theorem dictInsert_keys_of_mem {m : List (Nat × Nat × Nat)} {k : Nat} (v : Nat × Nat)
    (h : m.any (fun x => x.1 == k) = true) :
    (dictInsert m k v).map Prod.fst = m.map Prod.fst := by
  unfold dictInsert
  rw [if_pos h, List.map_map]
  apply List.map_congr_left
  intro x hx
  by_cases hk : (x.1 == k) = true
  · simp only [Function.comp_apply, if_pos hk]
    exact (beq_iff_eq.mp hk).symm
  · simp only [Function.comp_apply, if_neg hk]

theorem dictInsert_keys_of_not_mem {m : List (Nat × Nat × Nat)} {k : Nat} (v : Nat × Nat)
    (h : m.any (fun x => x.1 == k) = false) :
    (dictInsert m k v).map Prod.fst = m.map Prod.fst ++ [k] := by
  unfold dictInsert
  rw [if_neg (by simp [h]), List.map_append]
  rfl

theorem mem_keys_dictInsert {m : List (Nat × Nat × Nat)} {k p : Nat} {v : Nat × Nat} :
    p ∈ (dictInsert m k v).map Prod.fst ↔ p ∈ m.map Prod.fst ∨ p = k := by
  rcases ha : m.any (fun x => x.1 == k) with _ | _
  · rw [dictInsert_keys_of_not_mem v ha]
    simp
  · rw [dictInsert_keys_of_mem v ha]
    constructor
    · exact Or.inl
    · rintro (h | rfl)
      · exact h
      · obtain ⟨x, hx, hxk⟩ := List.any_eq_true.mp ha
        exact List.mem_map.mpr ⟨x, hx, (beq_iff_eq.mp hxk)⟩

theorem dictInsert_nodup {m : List (Nat × Nat × Nat)} {k : Nat} {v : Nat × Nat}
    (h : (m.map Prod.fst).Nodup) : ((dictInsert m k v).map Prod.fst).Nodup := by
  rcases ha : m.any (fun x => x.1 == k) with _ | _
  · rw [dictInsert_keys_of_not_mem v ha]
    refine h.append (List.nodup_singleton k) (List.disjoint_singleton.mpr ?_)
    intro hk
    obtain ⟨x, hx, hxk⟩ := List.mem_map.mp hk
    have : m.any (fun y => y.1 == k) = true :=
      List.any_eq_true.mpr ⟨x, hx, by simp [hxk]⟩
    simp [this] at ha
  · rw [dictInsert_keys_of_mem v ha]
    exact h

theorem lookup_dictInsert (p k : Nat) (v : Nat × Nat) :
    ∀ (m : List (Nat × Nat × Nat)), (m.map Prod.fst).Nodup →
      (dictInsert m k v).lookup p = if p = k then some v else m.lookup p
  | [], _ => by
    by_cases hpk : p = k
    · simp [dictInsert, List.lookup, hpk]
    · simp [dictInsert, List.lookup, hpk, beq_false_of_ne hpk]
  | x :: m', hnd => by
    have hx1 : x.1 ∉ m'.map Prod.fst := (List.nodup_cons.mp (by simpa using hnd)).1
    have hnd' : (m'.map Prod.fst).Nodup := (List.nodup_cons.mp (by simpa using hnd)).2
    rcases hany : (x :: m').any (fun y => y.1 == k) with _ | _
    · unfold dictInsert
      rw [if_neg (by simp [hany])]
      rw [List.lookup_append]
      by_cases hpk : p = k
      · subst hpk
        have hnone : (x :: m').lookup p = none := by
          rw [List.lookup_eq_none_iff]
          intro q hq
          have := List.any_eq_false.mp hany q hq
          simp only [bne_iff_ne, ne_eq]
          intro hh
          exact this (by simp [hh])
        rw [hnone, Option.none_or]
        simp [List.lookup]
      · have hsing : List.lookup p [(k, v)] = none := by
          simp [List.lookup, beq_false_of_ne hpk]
        simp [hsing, hpk, Option.or_none]
    · unfold dictInsert
      rw [if_pos hany]
      by_cases hxk : (x.1 == k) = true
      · have hxkeq : x.1 = k := beq_iff_eq.mp hxk
        have hmap : m'.map (fun y => if y.1 == k then (k, v) else y) = m' := by
          refine (List.map_congr_left ?_).trans (List.map_id _)
          intro y hy
          have hyk : y.1 ≠ k := fun hh => hx1 (hxkeq ▸ hh ▸ List.mem_map.mpr ⟨y, hy, rfl⟩)
          simp [beq_false_of_ne hyk]
        simp only [List.map_cons, if_pos hxk, hmap]
        by_cases hpk : p = k
        · subst hpk
          simp [List.lookup]
        · have hpx : (p == x.1) = false := beq_false_of_ne (fun hh => hpk (hh.trans hxkeq))
          simp [List.lookup, hpx, beq_false_of_ne hpk, hpk]
      · have hany' : m'.any (fun y => y.1 == k) = true := by
          rcases List.any_eq_true.mp hany with ⟨y, hy, hyk⟩
          rcases List.mem_cons.mp hy with rfl | hy
          · exact absurd hyk hxk
          · exact List.any_eq_true.mpr ⟨y, hy, hyk⟩
        have ih := lookup_dictInsert p k v m' hnd'
        unfold dictInsert at ih
        rw [if_pos hany'] at ih
        simp only [List.map_cons, if_neg hxk]
        by_cases hpx : (p == x.1) = true
        · have hpk : p ≠ k := fun hh => hxk (by rw [← beq_iff_eq.mp hpx, hh, beq_iff_eq])
          simp [List.lookup, hpx, hpk]
        · simp only [List.lookup, hpx]
          rw [ih]

theorem foldDictFrom_nodup :
    ∀ (ts m : List (Nat × Nat × Nat)), (m.map Prod.fst).Nodup →
      ((foldDictFrom m ts).map Prod.fst).Nodup
  | [], _, h => h
  | t :: ts, m, h => foldDictFrom_nodup ts (dictInsert m t.1 t.2) (dictInsert_nodup h)

theorem mem_keys_foldDictFrom (p : Nat) :
    ∀ (ts m : List (Nat × Nat × Nat)),
      p ∈ (foldDictFrom m ts).map Prod.fst ↔
        p ∈ m.map Prod.fst ∨ p ∈ ts.map Prod.fst
  | [], m => by simp [foldDictFrom]
  | t :: ts, m => by
    rw [show foldDictFrom m (t :: ts) = foldDictFrom (dictInsert m t.1 t.2) ts from rfl]
    rw [mem_keys_foldDictFrom p ts]
    rw [mem_keys_dictInsert]
    simp only [List.map_cons, List.mem_cons]
    tauto

theorem lookup_foldDictFrom (p : Nat) :
    ∀ (ts m : List (Nat × Nat × Nat)), (m.map Prod.fst).Nodup →
      (foldDictFrom m ts).lookup p = (ts.reverse.lookup p).or (m.lookup p)
  | [], m, h => by simp [foldDictFrom]
  | t :: ts, m, h => by
    rw [show foldDictFrom m (t :: ts) = foldDictFrom (dictInsert m t.1 t.2) ts from rfl]
    rw [lookup_foldDictFrom p ts _ (dictInsert_nodup h)]
    rw [lookup_dictInsert p t.1 t.2 m h]
    rw [List.reverse_cons, List.lookup_append, Option.or_assoc]
    congr 1
    by_cases hpk : p = t.1
    · subst hpk
      simp [List.lookup]
    · simp [List.lookup, beq_false_of_ne hpk, hpk]

theorem mem_of_lookup_eq_some {l : List (Nat × Nat × Nat)} {p : Nat} {v : Nat × Nat}
    (h : l.lookup p = some v) : (p, v) ∈ l := by
  obtain ⟨l₁, l₂, rfl, -⟩ := List.lookup_eq_some_iff.mp h
  simp

/-! ## Claim theorems: C5 and C10 -/

/-- C5: when every document's revisions form one contiguous run (the
ordering the query guarantees), every document appearing in the cursor has
an entry, and the `total_revisions` component of a document's entry counts
exactly that document's revisions whose own timestamp lies in `[start, end]`
— lookback revisions with earlier timestamps are excluded by the count
predicate. -/
theorem total_revisions_counts_in_range (cursor : List Rev) (s e : Int)
    (radius window : Nat)
    (hg : ((groupRuns cursor).map Prod.fst).Nodup) :
    (∀ p, p ∈ cursor.map Rev.rev_page →
        ((processCursor cursor s e radius window).lookup p).isSome = true) ∧
    (∀ p v, (processCursor cursor s e radius window).lookup p = some v →
        v.1 = (cursor.filter (fun r => r.rev_page == p)).countP (revInRange s e)) := by
  constructor
  · intro p hp
    rw [processCursor_eq_foldDict]
    rw [List.lookup_isSome_iff]
    have hkeys : p ∈ (foldDictFrom [] (groupTallies cursor s e radius window)).map
        Prod.fst := by
      rw [mem_keys_foldDictFrom]
      right
      rw [groupTallies, threadTallies_keys, mem_groupRuns_keys_iff]
      exact hp
    obtain ⟨q, hq, hqp⟩ := List.mem_map.mp hkeys
    exact ⟨q, hq, by simp [hqp]⟩
  · intro p v hv
    rw [processCursor_eq_foldDict, lookup_foldDictFrom p _ [] (by simp)] at hv
    simp only [List.lookup_nil, Option.or_none] at hv
    have hmem : (p, v) ∈ (groupTallies cursor s e radius window).reverse :=
      mem_of_lookup_eq_some hv
    rw [List.mem_reverse] at hmem
    obtain ⟨run, hrun, hcount⟩ :=
      mem_threadTallies radius window s e (groupRuns cursor) [] (p, v) hmem
    have hfil : cursor.filter (fun r => r.rev_page == p) = run := by
      have := flatMap_filter_of_nodup p (groupRuns cursor)
        (fun pr hpr => (groupRuns_pages cursor pr hpr).2) hg run hrun
      rw [groupRuns_flatMap] at this
      exact this
    rw [hfil]
    exact hcount

/-- Witness for `total_revisions_counts_in_range`: the fixture cursor has
nodup group keys and document 46229350 gets an entry. -/
theorem total_revisions_counts_in_range_witness :
    ((groupRuns fixtureCursor).map Prod.fst).Nodup ∧
    ((processCursor fixtureCursor 1427324400 1427338800 15 259200).lookup
        46229350).isSome = true :=
  ⟨by decide,
   (total_revisions_counts_in_range fixtureCursor 1427324400 1427338800 15 259200
      (by decide)).1 46229350 (by decide)⟩

/-- Cursor in which document 7's revisions appear in two non-contiguous
runs separated by a revision of document 8. -/
def nonContigCursor : List Rev :=
  [⟨1, 7, "a", 100⟩, ⟨2, 8, "b", 200⟩, ⟨3, 7, "c", 300⟩, ⟨4, 7, "d", 400⟩]

/-- C10: `get_revision_stats` keys its result by contiguous grouping: the
result always holds exactly one entry per distinct document id occurring in
the cursor (keys are nodup and coincide with the cursor's page ids); each
contiguous run is tallied separately (`groupTallies`) and a document's
entry is the tally of its *last* run — looking the result up equals looking
the reversed run-tally list up, so a later run's entry overwrites an
earlier one's.  On `nonContigCursor`, document 7's first run (one revision)
is overwritten by its second run (two revisions). -/
theorem stats_grouped_by_contiguous_runs :
    (∀ (cursor : List Rev) (s e : Int) (radius window : Nat),
      ((processCursor cursor s e radius window).map Prod.fst).Nodup ∧
      (∀ p, p ∈ (processCursor cursor s e radius window).map Prod.fst ↔
          p ∈ cursor.map Rev.rev_page) ∧
      (∀ p, (processCursor cursor s e radius window).lookup p =
          (groupTallies cursor s e radius window).reverse.lookup p)) ∧
    processCursor nonContigCursor 0 1000 15 100000 = [(7, 2, 0), (8, 1, 0)] ∧
    groupTallies nonContigCursor 0 1000 15 100000 =
      [(7, 1, 0), (8, 1, 0), (7, 2, 0)] := by
  refine ⟨?_, by decide, by decide⟩
  intro cursor s e radius window
  refine ⟨?_, ?_, ?_⟩
  · rw [processCursor_eq_foldDict]
    exact foldDictFrom_nodup _ [] (by simp)
  · intro p
    rw [processCursor_eq_foldDict, mem_keys_foldDictFrom]
    rw [groupTallies, threadTallies_keys, mem_groupRuns_keys_iff]
    simp
  · intro p
    rw [processCursor_eq_foldDict, lookup_foldDictFrom p _ [] (by simp)]
    simp [Option.or_none]

/-! ## Claim theorem: C6, the extended selection range -/

/-- C6: the revision selection of both the stats pipeline and the revert
pipeline runs over the extended range whose lower bound is exactly
`start − revert_window` seconds and whose upper bound is `end` (both
inclusive, as in the SQL `>=`/`<=`), ordered by document id and then by
ascending timestamp. -/
theorem extended_range_selection :
    ∀ (table : List Rev) (s e : Int) (radius window : Nat),
      compute table s e radius window =
        processCursor (fetchRevisions table s e window) s e radius window ∧
      getRevertsFrom table s e radius window =
        getRevertsCursor (fetchRevisions table s e window) s e radius window ∧
      (∀ r, r ∈ fetchRevisions table s e window ↔
          r ∈ table ∧ s - (window : Int) ≤ r.rev_timestamp ∧ r.rev_timestamp ≤ e) ∧
      (fetchRevisions table s e window).Pairwise (fun a b => pageTsLe a b = true) := by
  intro table s e radius window
  refine ⟨rfl, rfl, ?_, ?_⟩
  · intro r
    unfold fetchRevisions
    rw [(List.mergeSort_perm _ _).mem_iff]
    simp [List.mem_filter]
  · unfold fetchRevisions
    apply List.sorted_mergeSort
    · intro a b c hab hbc
      simp only [pageTsLe, Bool.or_eq_true, Bool.and_eq_true, decide_eq_true_eq]
        at hab hbc ⊢
      omega
    · intro a b
      simp only [pageTsLe, Bool.or_eq_true, Bool.and_eq_true, decide_eq_true_eq]
      omega

/-! ## Lemmas about the tabular rendering, and claim theorem C8 -/

theorem not_mem_replaceTab : ∀ (cs : List Char), '\t' ∉ replaceTab cs
  | [] => by simp [replaceTab]
  | c :: cs => by
    simp only [replaceTab, List.mem_append]
    rintro (h | h)
    · by_cases hc : c = '\t'
      · rw [if_pos hc] at h
        simp at h
      · rw [if_neg hc] at h
        simp at h
        exact hc h.symm
    · exact not_mem_replaceTab cs h

theorem not_mem_replaceNewline_nl : ∀ (cs : List Char), '\n' ∉ replaceNewline cs
  | [] => by simp [replaceNewline]
  | c :: cs => by
    simp only [replaceNewline, List.mem_append]
    rintro (h | h)
    · by_cases hc : c = '\n'
      · rw [if_pos hc] at h
        simp at h
      · rw [if_neg hc] at h
        simp at h
        exact hc h.symm
    · exact not_mem_replaceNewline_nl cs h

theorem not_mem_replaceNewline_tab :
    ∀ (cs : List Char), '\t' ∉ cs → '\t' ∉ replaceNewline cs
  | [] => by simp [replaceNewline]
  | c :: cs => by
    intro hcs
    simp only [replaceNewline, List.mem_append]
    rintro (h | h)
    · by_cases hc : c = '\n'
      · rw [if_pos hc] at h
        simp at h
      · rw [if_neg hc] at h
        simp at h
        exact hcs (h ▸ List.mem_cons_self _ _)
    · exact not_mem_replaceNewline_tab cs
        (fun hh => hcs (List.mem_cons_of_mem _ hh)) h

/-- No encoded field value contains a raw tab or newline character. -/
theorem encode_no_tab_newline : ∀ (v : Val), '\t' ∉ encode v ∧ '\n' ∉ encode v
  | .null => by constructor <;> decide
  | .str cs =>
    ⟨not_mem_replaceNewline_tab _ (not_mem_replaceTab cs),
     not_mem_replaceNewline_nl _⟩
  | .nat n =>
    ⟨not_mem_replaceNewline_tab _ (not_mem_replaceTab _),
     not_mem_replaceNewline_nl _⟩

/-- C8: every detected revert is rendered as exactly one row (`runRows` is
the header plus one row per revert); splitting a rendered row on the tab
character recovers exactly the eight encoded columns in order — document
id, namespace, title, reverting id, reverting timestamp, count of
reverteds, reverted-to id, reverted-to timestamp; `None` renders as the
literal `NULL`; and no encoded value retains a raw tab or newline (both
are backslash-escaped). -/
theorem row_rendering_spec :
    (∀ x : XRow, (renderRow x).splitOn '\t' = (rowFields x).map encode ∧
        ((rowFields x).map encode).length = 8) ∧
    encode Val.null = "NULL".data ∧
    (∀ v : Val, '\t' ∉ encode v ∧ '\n' ∉ encode v) ∧
    (∀ rows : List XRow, (runRows rows).length = rows.length + 1) := by
  refine ⟨?_, rfl, encode_no_tab_newline, ?_⟩
  · intro x
    constructor
    · unfold renderRow
      apply List.splitOn_intercalate
      · intro l hl
        obtain ⟨v, hv, rfl⟩ := List.mem_map.mp hl
        exact (encode_no_tab_newline v).1
      · simp [rowFields]
    · simp [rowFields]
  · intro rows
    simp [runRows]

end RevertAnalysis
